import Mathlib

/-!
Verification development for the IRRES.be listing-extraction pipeline
(`app.py`).  Python strings are modelled as Lean `String`s with the bulk of
the processing on `List Char`; Python library collaborators
(`html.unescape`, `bytes(...).decode("unicode_escape")`, `str.lower`,
`str.split`, regular-expression matching) are modelled by executable Lean
functions that follow the library algorithms, ASCII case mapping where the
data is ASCII.  BeautifulSoup node access is treated as an external
collaborator: functions that walk the DOM receive the list of raw values
the Python code reads off the nodes.
-/

namespace Irres

/-- Model of Python lower-casing restricted to ASCII letters, which is all
the pipeline compares case-insensitively. -/
def lowerChar (c : Char) : Char :=
  match c with
  | 'A' => 'a' | 'B' => 'b' | 'C' => 'c' | 'D' => 'd' | 'E' => 'e' | 'F' => 'f'
  | 'G' => 'g' | 'H' => 'h' | 'I' => 'i' | 'J' => 'j' | 'K' => 'k' | 'L' => 'l'
  | 'M' => 'm' | 'N' => 'n' | 'O' => 'o' | 'P' => 'p' | 'Q' => 'q' | 'R' => 'r'
  | 'S' => 's' | 'T' => 't' | 'U' => 'u' | 'V' => 'v' | 'W' => 'w' | 'X' => 'x'
  | 'Y' => 'y' | 'Z' => 'z'
  | c => c

/-- Model of Python upper-casing restricted to ASCII letters. -/
def upperChar (c : Char) : Char :=
  match c with
  | 'a' => 'A' | 'b' => 'B' | 'c' => 'C' | 'd' => 'D' | 'e' => 'E' | 'f' => 'F'
  | 'g' => 'G' | 'h' => 'H' | 'i' => 'I' | 'j' => 'J' | 'k' => 'K' | 'l' => 'L'
  | 'm' => 'M' | 'n' => 'N' | 'o' => 'O' | 'p' => 'P' | 'q' => 'Q' | 'r' => 'R'
  | 's' => 'S' | 't' => 'T' | 'u' => 'U' | 'v' => 'V' | 'w' => 'W' | 'x' => 'X'
  | 'y' => 'Y' | 'z' => 'Z'
  | c => c

def lowerL (l : List Char) : List Char := l.map lowerChar

def lowerStr (s : String) : String := String.mk (lowerL s.data)

/-- The characters Python `str.split()` and `str.strip()` treat as
whitespace (Unicode whitespace, including the non-breaking space). -/
def pySpaceChars : List Char :=
  [' ', '\t', '\n', '\r', '\x0b', '\x0c', '\x1c', '\x1d', '\x1e',
   '\x1f', '\x85', '\u00A0', '\u1680', '\u2000', '\u2001', '\u2002',
   '\u2003', '\u2004', '\u2005', '\u2006', '\u2007', '\u2008',
   '\u2009', '\u200A', '\u2028', '\u2029', '\u202F', '\u205F',
   '\u3000']

def isPySpace (c : Char) : Bool := pySpaceChars.contains c

/-- ASCII decimal digit, the character class of the `[^0-9]` regex. -/
def isAsciiDigit (c : Char) : Bool :=
  decide (48 ≤ c.toNat) && decide (c.toNat ≤ 57)

/-- The characters stripped by Python `strip('\x27"')` in `normalize_url`. -/
def isQuoteChar (c : Char) : Bool := c == '\x27' || c == '"'

/-- Model of Python `str.strip`-style trimming: drop characters satisfying
`p` from both ends. -/
def stripEndsBy (p : Char → Bool) (l : List Char) : List Char :=
  ((l.dropWhile p).reverse.dropWhile p).reverse

def pyStripL (l : List Char) : List Char := stripEndsBy isPySpace l

def pyStrip (s : String) : String := String.mk (pyStripL s.data)

def stripQuotesL (l : List Char) : List Char := stripEndsBy isQuoteChar l

/-- Model of Python `pat in s` substring containment on character lists. -/
def substrOccursL (pat : List Char) : List Char → Bool
  | [] => pat.isEmpty
  | l@(_ :: t) => pat.isPrefixOf l || substrOccursL pat t

/-- Python `pat in s` on strings. -/
def containsSubstr (s pat : String) : Bool := substrOccursL pat.data s.data

/-- Python `s.startswith(pat)` on character lists. -/
def pyStartsWithL (l pat : List Char) : Bool := pat.isPrefixOf l

/-- Python `s.startswith(pat)` on strings. -/
def pyStartsWith (s pat : String) : Bool := pyStartsWithL s.data pat.data

/-- Model of `" ".join(words)`. -/
def joinSp : List (List Char) → List Char
  | [] => []
  | [w] => w
  | w :: ws => w ++ ' ' :: joinSp ws

/-- Worker for Python `str.split()` (split on whitespace runs, dropping
empty pieces); `acc` holds the current word reversed. -/
def pySplitWsGo : List Char → List Char → List (List Char)
  | [], acc => if acc.isEmpty then [] else [acc.reverse]
  | c :: rest, acc =>
    if isPySpace c then
      if acc.isEmpty then pySplitWsGo rest []
      else acc.reverse :: pySplitWsGo rest []
    else pySplitWsGo rest (c :: acc)

/-- Python `str.split()` with no arguments. -/
def pySplitWs (l : List Char) : List (List Char) := pySplitWsGo l []

/-! ### Model of `html.unescape`

`normalize_text` calls `html.unescape`, whose algorithm scans for
`&(#digits;? | #x hex;? | name;?)` character references and substitutes
them.  The model below follows that scan; the named-entity table is
restricted to the entities that occur on the scraped site (numeric
references are handled in general). -/

def namedEntities : List (String × String) :=
  [("amp;", "&"), ("amp", "&"),
   ("lt;", "<"), ("lt", "<"),
   ("gt;", ">"), ("gt", ">"),
   ("quot;", "\""), ("quot", "\""),
   ("apos;", "\x27"),
   ("nbsp;", " "), ("nbsp", " "),
   ("euro;", "€"),
   ("sup2;", "²"),
   ("eacute;", "é"), ("egrave;", "è"), ("agrave;", "à"),
   ("uuml;", "ü"), ("ouml;", "ö"), ("ccedil;", "ç")]

def entTable : List (List Char × List Char) :=
  namedEntities.map (fun p => (p.1.data, p.2.data))

def entExact (s : List Char) : Option (List Char) :=
  (entTable.find? (fun p => p.1 == s)).map (fun p => p.2)

/-- Longest-matching-prefix fallback of the reference replacer: try
prefixes of length `x`, `x-1`, ..., `2`. -/
def entPrefixGo (s : List Char) : Nat → Option (List Char × Nat)
  | 0 => none
  | 1 => none
  | (x + 2) =>
    match entExact (s.take (x + 2)) with
    | some r => some (r, x + 2)
    | none => entPrefixGo s (x + 1)

/-- Character class of a named-reference body: `[^\t\n\x0c <&#;]`. -/
def isEntNameChar (c : Char) : Bool :=
  !(c == '\t' || c == '\n' || c == '\x0c' || c == ' ' || c == '<' ||
    c == '&' || c == '#' || c == ';')

def hexDigitVal (c : Char) : Option Nat :=
  if 48 ≤ c.toNat ∧ c.toNat ≤ 57 then some (c.toNat - 48)
  else if 97 ≤ c.toNat ∧ c.toNat ≤ 102 then some (c.toNat - 87)
  else if 65 ≤ c.toNat ∧ c.toNat ≤ 70 then some (c.toNat - 55)
  else none

def isHexDigitCh (c : Char) : Bool := (hexDigitVal c).isSome

def hexNat (l : List Char) : Nat :=
  l.foldl (fun n c => n * 16 + ((hexDigitVal c).getD 0)) 0

def decNat (l : List Char) : Nat :=
  l.foldl (fun n c => n * 10 + (c.toNat - 48)) 0

/-- Replacement text of a numeric character reference: surrogates, values
above `0x10FFFF` and NUL become the replacement character, as in the
reference implementation (the Windows-1252 remapping table is not
modelled; no claim touches those code points). -/
def charrefChar (n : Nat) : List Char :=
  if n = 0 then ['�']
  else if 0xD800 ≤ n ∧ n ≤ 0xDFFF then ['�']
  else if 0x10FFFF < n then ['�']
  else [Char.ofNat n]

/-- Try to match a character reference immediately after a `&`; returns
the replacement text and the number of input characters consumed. -/
def matchCharref (l : List Char) : Option (List Char × Nat) :=
  match l with
  | '#' :: t =>
    match t with
    | [] => none
    | x :: t2 =>
      if x = 'x' ∨ x = 'X' then
        let hs := t2.takeWhile isHexDigitCh
        if hs.isEmpty then none
        else
          let n := 2 + hs.length
          match l.drop n with
          | ';' :: _ => some (charrefChar (hexNat hs), n + 1)
          | _ => some (charrefChar (hexNat hs), n)
      else
        let ds := t.takeWhile isAsciiDigit
        if ds.isEmpty then none
        else
          let n := 1 + ds.length
          match l.drop n with
          | ';' :: _ => some (charrefChar (decNat ds), n + 1)
          | _ => some (charrefChar (decNat ds), n)
  | _ =>
    let nm := (l.takeWhile isEntNameChar).take 32
    if nm.isEmpty then none
    else
      match l.drop nm.length with
      | ';' :: _ =>
        let s := nm ++ [';']
        (match entExact s with
         | some r => some (r, s.length)
         | none =>
           match entPrefixGo s (s.length - 1) with
           | some (r, x) => some (r ++ s.drop x, s.length)
           | none => none)
      | _ =>
        (match entExact nm with
         | some r => some (r, nm.length)
         | none =>
           match entPrefixGo nm (nm.length - 1) with
           | some (r, x) => some (r ++ nm.drop x, nm.length)
           | none => none)

/-- Fueled scanner of `html.unescape`; every step consumes at least one
input character, so fuel equal to the input length is always enough. -/
def unescapeGo : Nat → List Char → List Char
  | 0, l => l
  | _ + 1, [] => []
  | fuel + 1, c :: rest =>
    if c = '&' then
      match matchCharref rest with
      | some (repl, n) => repl ++ unescapeGo fuel (rest.drop n)
      | none => '&' :: unescapeGo fuel rest
    else c :: unescapeGo fuel rest

def htmlUnescapeL (l : List Char) : List Char := unescapeGo l.length l

/-! ### Model of `bytes(s, "utf-8").decode("unicode_escape")`

The Python call UTF-8-encodes the string and then decodes the byte string
with the `unicode_escape` codec (escape sequences expanded, all other
bytes read as Latin-1).  Failures (`except`) make `normalize_text` keep
the text unchanged, hence the `Option` result. -/

def utf8Bytes (c : Char) : List Nat :=
  let n := c.toNat
  if n < 0x80 then [n]
  else if n < 0x800 then [0xC0 + n / 0x40, 0x80 + n % 0x40]
  else if n < 0x10000 then
    [0xE0 + n / 0x1000, 0x80 + (n / 0x40) % 0x40, 0x80 + n % 0x40]
  else
    [0xF0 + n / 0x40000, 0x80 + (n / 0x1000) % 0x40,
     0x80 + (n / 0x40) % 0x40, 0x80 + n % 0x40]

/-- Take exactly `k` hexadecimal digits, returning their value and the
remaining bytes. -/
def hexTake : Nat → List Nat → Option (Nat × List Nat)
  | 0, l => some (0, l)
  | k + 1, [] => (fun _ => none) k
  | k + 1, b :: rest =>
    match hexDigitVal (Char.ofNat b) with
    | some v =>
      match hexTake k rest with
      | some (n, r) => some (v * 16 ^ k + n, r)
      | none => none
    | none => none

def isOctalByte (b : Nat) : Bool := decide (48 ≤ b) && decide (b ≤ 55)

/-- Fueled `unicode_escape` decoder over the UTF-8 bytes. -/
def uescGo : Nat → List Nat → Option (List Char)
  | 0, _ => none
  | _ + 1, [] => some []
  | fuel + 1, b :: rest =>
    if b = 92 then
      match rest with
      | [] => none
      | e :: r2 =>
        if e = 10 then uescGo fuel r2
        else if e = 92 then (uescGo fuel r2).map (fun t => '\\' :: t)
        else if e = 39 then (uescGo fuel r2).map (fun t => '\x27' :: t)
        else if e = 34 then (uescGo fuel r2).map (fun t => '"' :: t)
        else if e = 97 then (uescGo fuel r2).map (fun t => '\x07' :: t)
        else if e = 98 then (uescGo fuel r2).map (fun t => '\x08' :: t)
        else if e = 102 then (uescGo fuel r2).map (fun t => '\x0c' :: t)
        else if e = 110 then (uescGo fuel r2).map (fun t => '\n' :: t)
        else if e = 114 then (uescGo fuel r2).map (fun t => '\r' :: t)
        else if e = 116 then (uescGo fuel r2).map (fun t => '\t' :: t)
        else if e = 118 then (uescGo fuel r2).map (fun t => '\x0b' :: t)
        else if isOctalByte e then
          let os := (r2.takeWhile isOctalByte).take 2
          let v := (e :: os).foldl (fun n d => n * 8 + (d - 48)) 0
          (uescGo fuel (r2.drop os.length)).map (fun t => Char.ofNat v :: t)
        else if e = 120 then
          match hexTake 2 r2 with
          | some (v, r3) => (uescGo fuel r3).map (fun t => Char.ofNat v :: t)
          | none => none
        else if e = 117 then
          match hexTake 4 r2 with
          | some (v, r3) =>
            if 0xD800 ≤ v ∧ v ≤ 0xDFFF then none
            else (uescGo fuel r3).map (fun t => Char.ofNat v :: t)
          | none => none
        else if e = 85 then
          match hexTake 8 r2 with
          | some (v, r3) =>
            if (0xD800 ≤ v ∧ v ≤ 0xDFFF) ∨ 0x10FFFF < v then none
            else (uescGo fuel r3).map (fun t => Char.ofNat v :: t)
          | none => none
        else if e = 78 then none
        else (uescGo fuel r2).map (fun t => '\\' :: Char.ofNat e :: t)
    else (uescGo fuel rest).map (fun t => Char.ofNat b :: t)

def uescDecode (l : List Char) : Option (List Char) :=
  let bs := l.flatMap utf8Bytes
  uescGo (bs.length + 1) bs

/-! ### `normalize_text` (app.py lines 267-291) -/

/-- The escape-decoding step of `normalize_text`: when a literal `\u` or
`\x` marker is present, try the `unicode_escape` decode, keeping the text
unchanged on failure. -/
def decodeEscapes (l : List Char) : List Char :=
  if substrOccursL ['\\', 'u'] l || substrOccursL ['\\', 'x'] l then
    match uescDecode l with
    | some d => d
    | none => l
  else l

/-- The whitespace step of `normalize_text`:
`" ".join(s.split())` followed by `strip()`. -/
def collapseSpaces (l : List Char) : List Char :=
  stripEndsBy isPySpace (joinSp (pySplitWs l))

/-- Embedding of `normalize_text`: decode HTML entities, decode literal
backslash escapes when a `\u`/`\x` marker is present (failures absorbed),
collapse whitespace runs to single spaces and trim. -/
def normalize_text (s : String) : String :=
  String.mk (collapseSpaces (decodeEscapes (htmlUnescapeL s.data)))

/-- The `None` input case of `normalize_text`. -/
def normalize_textOpt : Option String → String
  | none => ""
  | some s => normalize_text s

/-! ### `normalize_url` (app.py lines 294-323) -/

/-- Python `re.match(r'https?://', src, re.I)`: a case-insensitive scheme
prefix. -/
def httpSchemeMatch (l : List Char) : Bool :=
  pyStartsWithL (lowerL l) "http://".data || pyStartsWithL (lowerL l) "https://".data

/-- The resolution if-chain of `normalize_url`, applied to the stripped
source: protocol-relative, root-relative, absolute, `www.`, scheme-free
relative, fall-through. -/
def resolveUrl (s : List Char) : List Char :=
  if pyStartsWithL s "//".data then "https:".data ++ s
  else if pyStartsWithL s "/".data then "https://irres.be".data ++ s
  else if httpSchemeMatch s then s
  else if pyStartsWithL s "www.".data then "https://".data ++ s
  else if !(s.contains ':') then
    "https://irres.be/".data ++ s.dropWhile (fun c => c == '/')
  else s

/-- The tracking-parameter step of `normalize_url`: append
`origin=habichat` to listing URLs, choosing `&` versus `?` by the
presence of a query string. -/
def addTrackingParam (url : List Char) (addTracking : Bool) : List Char :=
  if addTracking && substrOccursL "/pand/".data url then
    url ++ (if url.contains '?' then "&".data else "?".data) ++
      "origin=habichat".data
  else url

/-- Embedding of `normalize_url`: make a URL absolute for the IRRES.be
site, optionally appending the tracking parameter to listing URLs. -/
def normalize_url (src : String) (addTracking : Bool) : String :=
  if src.data.isEmpty then ""
  else
    String.mk
      (addTrackingParam (resolveUrl (stripQuotesL (pyStripL src.data)))
        addTracking)

/-! ### `format_price_string` (app.py lines 337-370) -/

/-- Model of `re.sub(r'(?i)prijs op aanvraag|compromis.*', '', s)`: scan
left to right, removing case-insensitive occurrences of the first phrase
and truncating at `compromis` up to the next newline (the input has been
whitespace-collapsed by `normalize_text`, so in the pipeline the `.*`
always reaches the end of the string). -/
def stripPhrasesGo : Nat → List Char → List Char
  | 0, l => l
  | _ + 1, [] => []
  | fuel + 1, l@(c :: t) =>
    if pyStartsWithL (lowerL l) "prijs op aanvraag".data then
      stripPhrasesGo fuel (l.drop 17)
    else if pyStartsWithL (lowerL l) "compromis".data then
      stripPhrasesGo fuel ((l.drop 9).dropWhile (fun c => !(c == '\n')))
    else c :: stripPhrasesGo fuel t

def removePricePhrases (l : List Char) : List Char := stripPhrasesGo l.length l

/-- Split a reversed digit list into groups of three, the grouping of
Python `format(num, ',')`. -/
def chunk3 : List Char → List (List Char)
  | [] => []
  | [a] => [[a]]
  | [a, b] => [[a, b]]
  | a :: b :: c :: t => [a, b, c] :: chunk3 t

def joinDot : List (List Char) → List Char
  | [] => []
  | [w] => w
  | w :: ws => w ++ '.' :: joinDot ws

/-- `format(num, ',').replace(',', '.')`: thousands grouping with `.` as
separator. -/
def groupThousands (ds : List Char) : List Char :=
  (joinDot (chunk3 ds.reverse)).reverse

def natOfDigitsL (l : List Char) : Nat :=
  l.foldl (fun n c => n * 10 + (c.toNat - 48)) 0

/-- The digit extraction of `format_price_string` (lines 357-359): strip
`€` signs, remove the special phrases, strip whitespace, keep the digit
characters. -/
def priceDigits (s : String) : List Char :=
  (pyStripL
    (removePricePhrases (s.data.filter (fun c => !(c == '€'))))).filter
    isAsciiDigit

/-- Embedding of `format_price_string`: classify a raw price fragment into
the on-request phrase, the compromise phrase, a `€`-formatted amount, or
the normalized input as fallback. -/
def format_price_string (raw : String) : String :=
  if raw.data.isEmpty then ""
  else if substrOccursL "prijs op aanvraag".data
      (lowerL (normalize_text raw).data) then
    "Prijs op aanvraag"
  else if substrOccursL "compromis".data (lowerL (normalize_text raw).data) then
    "Compromis in opmaak"
  else if (priceDigits (normalize_text raw)).isEmpty then normalize_text raw
  else
    "€ " ++ String.mk
      (groupThousands
        (Nat.toDigits 10 (natOfDigitsL (priceDigits (normalize_text raw)))))

/-! ### `format_details_as_string` (app.py lines 373-387) -/

/-- Embedding of `format_details_as_string`: semicolon-joined `key: value`
pairs, keeping only non-empty values. -/
def format_details_as_string (details : List (String × String)) : String :=
  String.intercalate "; "
    ((details.filter (fun kv => !(pyStrip kv.2 == "") && !(kv.2 == ""))).map
      (fun kv => kv.1 ++ ": " ++ kv.2))

/-! ### `extract_property_details_from_detail_soup` (app.py lines 589-646)

The BeautifulSoup traversal supplies, for each `li[data-value]` element,
its `data-value` attribute, the text of its first nested `p` (when one
exists) and its own text; the classification and dictionary updates below
are the embedded decision logic. -/

structure DetailLi where
  dataValue : String
  pText : Option String
  ownText : String

/-- The normalized value the code extracts from one list item. -/
def liValue (li : DetailLi) : String :=
  normalize_text (li.pText.getD li.ownText)

/-- The ten detail keys, in the initialization order of the Python dict. -/
def DETAIL_KEYS : List String :=
  ["Terrein_oppervlakte", "Bewoonbare_oppervlakte", "Terras_oppervlakte",
   "Orientatie", "Slaapkamers", "Badkamers", "Bouwjaar", "Renovatiejaar",
   "EPC", "Beschikbaarheid"]

/-- The all-empty details dict. -/
def initDetails : List (String × String) := DETAIL_KEYS.map (fun k => (k, ""))

/-- Python dict assignment `m[k] = v` for a key already present. -/
def setKey (m : List (String × String)) (k v : String) : List (String × String) :=
  m.map (fun kv => if kv.1 = k then (k, v) else kv)

/-- First binding of `k`, Python `dict.get`. -/
def lookupKey (k : String) : List (String × String) → Option String
  | [] => none
  | kv :: t => if kv.1 = k then some kv.2 else lookupKey k t

/-- The case-insensitive substring classification of a `data-value` label
onto a detail key, in the order of the `elif` chain. -/
def classifyKey (key : String) : Option String :=
  let kl := String.mk (lowerL key.data)
  if containsSubstr kl "terrein" then some "Terrein_oppervlakte"
  else if containsSubstr kl "terras" then some "Terras_oppervlakte"
  else if containsSubstr kl "bewoonbare" then some "Bewoonbare_oppervlakte"
  else if containsSubstr kl "ori" then some "Orientatie"
  else if containsSubstr kl "slaap" then some "Slaapkamers"
  else if containsSubstr kl "bad" then some "Badkamers"
  else if containsSubstr kl "bouw" && !(containsSubstr kl "reno") then some "Bouwjaar"
  else if containsSubstr kl "reno" then some "Renovatiejaar"
  else if containsSubstr kl "epc" then some "EPC"
  else if containsSubstr kl "beschik" then some "Beschikbaarheid"
  else none

/-- Processing of one `li` element: skip empty values, classify the label,
update the matching key. -/
def stepLi (m : List (String × String)) (li : DetailLi) : List (String × String) :=
  if liValue li = "" then m
  else
    match classifyKey (pyStrip li.dataValue) with
    | some k => setKey m k (liValue li)
    | none => m

/-- Embedding of `extract_property_details_from_detail_soup` over the
gathered `li[data-value]` elements. -/
def extract_property_details (lis : List DetailLi) : List (String × String) :=
  lis.foldl stepLi initDetails

/-- The merge in `get_listings` (lines 812-815): copy each non-empty found
value onto the all-empty dict. -/
def mergeDetails (found : List (String × String)) : List (String × String) :=
  initDetails.map (fun kv =>
    match lookupKey kv.1 found with
    | some v => if v = "" then kv else (kv.1, v)
    | none => kv)

/-! ### Contact label (app.py lines 649-689 and 786-809) -/

/-- Python `str.capitalize` (ASCII model): first character upper-cased,
the rest lower-cased. -/
def pyCapitalize : List Char → List Char
  | [] => []
  | c :: t => upperChar c :: t.map lowerChar

/-- Model of `re.split(r'[._\-]', s)`. -/
def splitSeps : List Char → List (List Char)
  | [] => [[]]
  | c :: t =>
    if c = '.' ∨ c = '_' ∨ c = '-' then [] :: splitSeps t
    else
      match splitSeps t with
      | [] => [[c]]
      | w :: ws => (c :: w) :: ws

/-- The `Button2_Label` name: `" ".join(p.capitalize() for p in
re.split(r'[._\-]', base) if p)` applied to the first name when present,
else to the part of the email before `@`. -/
def contactNameLabel (firstName email : String) : String :=
  let base := if firstName = "" then email.data.takeWhile (fun c => !(c == '@'))
              else firstName.data
  String.mk (joinSp (((splitSeps base).filter (fun w => !w.isEmpty)).map pyCapitalize))

/-- Embedding of the contact-button assembly in `get_listings`: given the
extraction result of the detail page (`none` when the detail fetch
failed), produce `(Button2_Label, Button2_email)`. -/
def mkButton2 (found : Option (String × String)) : String × String :=
  match found with
  | none => ("", "")
  | some (firstName, email) =>
    if email = "" then ("", "")
    else
      ("Contacteer " ++ contactNameLabel firstName email ++ " - Irres",
       "mailto:" ++ email)

/-! ### Price-inquiry button (app.py lines 853-856) -/

/-- Embedding of the `Button3` logic in `get_listings`: label and target
are populated exactly when the formatted price is the on-request phrase;
the target prefixes whatever `Button2_email` holds (possibly empty). -/
def mkButton3 (priceFormatted listingId button2Email : String) : String × String :=
  (if priceFormatted = "Prijs op aanvraag" then "Vraag prijs aan" else "",
   if priceFormatted = "Prijs op aanvraag" then
     button2Email ++ "?subject=Prijs aanvraag " ++ listingId
   else "")

/-! ### Content gate and deduplication (app.py lines 879-891) -/

structure ListingObj where
  listing_id : String
  location : String
  price : String
  description : String
deriving DecidableEq

/-- The emission condition: the record has a location, a price or a
description (Python truthiness of the three strings). -/
def keepListing (r : ListingObj) : Bool :=
  !(r.location == "") || !(r.price == "") || !(r.description == "")

/-- The content-quality gate applied before collecting listings. -/
def emitFilter (l : List ListingObj) : List ListingObj := l.filter keepListing

/-- The dedup loop with its `seen_ids` set. -/
def dedupGo (seen : List String) : List ListingObj → List ListingObj
  | [] => []
  | r :: rest =>
    if r.listing_id ∈ seen then dedupGo seen rest
    else r :: dedupGo (r.listing_id :: seen) rest

/-- Embedding of the dedup step of `get_listings`. -/
def dedupByListingId (l : List ListingObj) : List ListingObj := dedupGo [] l

/-! ### `find_photo_on_element` (app.py lines 464-525)

The candidate-gathering loops read `src`/`data-src`/`srcset`/`style`
values off the DOM (an external collaborator); the list of gathered raw
candidate strings, in gathering order, is the input below.  The embedded
logic is the normalize-filter-rank part. -/

/-- The preference test: an uploads/site-assets/property path or a common
raster-image extension followed by `?` or the end of the URL. -/
def extMatchAt (e : List Char) (l : List Char) : Bool :=
  pyStartsWithL l ('.' :: e) &&
    (match l.drop (e.length + 1) with
     | [] => true
     | c :: _ => c == '?')

def extOcc (e : List Char) : List Char → Bool
  | [] => false
  | l@(_ :: t) => extMatchAt e l || extOcc e t

def isPreferredPhoto (n : String) : Bool :=
  let nl := lowerL n.data
  substrOccursL "/uploads".data nl || substrOccursL "uploads_c".data nl ||
    substrOccursL "/siteassets".data nl || substrOccursL "/panden".data nl ||
    extOcc "jpg".data nl || extOcc "jpeg".data nl || extOcc "png".data nl ||
    extOcc "webp".data nl || extOcc "gif".data nl

/-- The normalize-and-filter loop of `find_photo_on_element`: skip empty
candidates, normalize, keep only non-empty URLs that are not `data:` URIs
and carry no `svg` reference. -/
def normPhotoCandidates (candidates : List String) : List String :=
  candidates.foldr
    (fun c acc =>
      if c = "" then acc
      else if !(normalize_url c false == "") &&
          !(pyStartsWith (normalize_url c false) "data:") &&
          !(substrOccursL "svg".data (lowerL (normalize_url c false).data)) then
        normalize_url c false :: acc
      else acc) []

/-- Embedding of `find_photo_on_element` on the gathered candidates:
normalize, drop `data:` URIs and svg references, return the first
preferred candidate, else the first surviving candidate, else empty. -/
def find_photo_on_element (candidates : List String) : String :=
  ((normPhotoCandidates candidates).find? isPreferredPhoto).getD
    ((normPhotoCandidates candidates).headD "")

/-- Substring occurrence as a proposition: `pat` appears contiguously in
`l`. -/
def OccP (pat l : List Char) : Prop := ∃ u v, l = u ++ pat ++ v

/-! ## General lemmas about the string helpers -/

theorem dropWhile_cons_false {p : Char → Bool} {c : Char} {t : List Char}
    (h : p c = false) : (c :: t).dropWhile p = c :: t := by
  simp [List.dropWhile, h]

theorem dropWhile_cons_true {p : Char → Bool} {c : Char} {t : List Char}
    (h : p c = true) : (c :: t).dropWhile p = t.dropWhile p := by
  simp [List.dropWhile, h]

theorem length_dropWhile_le (p : Char → Bool) (l : List Char) :
    (l.dropWhile p).length ≤ l.length :=
  (List.dropWhile_suffix p).sublist.length_le

theorem dropWhile_eq_self_of_head {p : Char → Bool} {l : List Char}
    (h : ∀ c, l.head? = some c → p c = false) : l.dropWhile p = l := by
  cases l with
  | nil => rfl
  | cons c t => exact dropWhile_cons_false (h c rfl)

theorem head?_dropWhile {p : Char → Bool} (l : List Char) :
    ∀ c, (l.dropWhile p).head? = some c → p c = false := by
  induction l with
  | nil => intro c hc; cases hc
  | cons a t ih =>
    intro c hc
    by_cases hp : p a
    · rw [dropWhile_cons_true hp] at hc; exact ih c hc
    · rw [Bool.not_eq_true] at hp
      rw [dropWhile_cons_false hp] at hc
      injection hc with h1; subst h1; exact hp

theorem stripEndsBy_eq_self {p : Char → Bool} {l : List Char}
    (h1 : ∀ c, l.head? = some c → p c = false)
    (h2 : ∀ c, l.getLast? = some c → p c = false) :
    stripEndsBy p l = l := by
  unfold stripEndsBy
  rw [dropWhile_eq_self_of_head h1]
  rw [dropWhile_eq_self_of_head
    (fun c hc => h2 c (by rwa [List.head?_reverse] at hc))]
  exact List.reverse_reverse l

theorem stripEndsBy_self_head {p : Char → Bool} {l : List Char}
    (h : stripEndsBy p l = l) : ∀ c, l.head? = some c → p c = false := by
  intro c hc
  cases l with
  | nil => cases hc
  | cons a t =>
    injection hc with h1; subst h1
    by_contra hb
    rw [Bool.not_eq_false] at hb
    have hlen := congrArg List.length h
    unfold stripEndsBy at hlen
    rw [dropWhile_cons_true hb] at hlen
    simp only [List.length_reverse, List.length_cons] at hlen
    have h3 := length_dropWhile_le p (t.dropWhile p).reverse
    have h4 := length_dropWhile_le p t
    simp only [List.length_reverse] at h3
    omega

theorem stripEndsBy_self_last {p : Char → Bool} {l : List Char}
    (h : stripEndsBy p l = l) : ∀ c, l.getLast? = some c → p c = false := by
  intro c hc
  unfold stripEndsBy at h
  rw [← h, List.getLast?_reverse] at hc
  exact head?_dropWhile _ c hc

theorem substrOccursL_iff (pat l : List Char) :
    substrOccursL pat l = true ↔ OccP pat l := by
  induction l with
  | nil =>
    simp only [substrOccursL, List.isEmpty_iff, OccP]
    constructor
    · intro h; exact ⟨[], [], by simp [h]⟩
    · rintro ⟨u, v, hv⟩
      rcases List.append_eq_nil.mp hv.symm with ⟨h1, h2⟩
      rcases List.append_eq_nil.mp h1 with ⟨_, h3⟩
      exact h3
  | cons c t ih =>
    show (pat.isPrefixOf (c :: t) || substrOccursL pat t) = true ↔ _
    rw [Bool.or_eq_true, ih, List.isPrefixOf_iff_prefix]
    constructor
    · rintro (⟨s, hs⟩ | ⟨u, v, hv⟩)
      · exact ⟨[], s, by simp [hs]⟩
      · exact ⟨c :: u, v, by simp [hv]⟩
    · rintro ⟨u, v, hv⟩
      cases u with
      | nil => exact Or.inl ⟨v, by simpa using hv.symm⟩
      | cons a u' =>
        right
        rw [List.cons_append, List.cons_append] at hv
        injection hv with _ h2
        exact ⟨u', v, h2⟩

theorem occP_chars {pat l : List Char} (h : OccP pat l) : ∀ c ∈ pat, c ∈ l := by
  obtain ⟨u, v, rfl⟩ := h
  intro c hc
  simp only [List.mem_append]
  exact Or.inl (Or.inr hc)

theorem occP_append_left {pat l : List Char} (a : List Char) (h : OccP pat l) :
    OccP pat (a ++ l) := by
  obtain ⟨u, v, rfl⟩ := h
  exact ⟨a ++ u, v, by simp⟩

theorem occP_append_right {pat l : List Char} (b : List Char) (h : OccP pat l) :
    OccP pat (l ++ b) := by
  obtain ⟨u, v, rfl⟩ := h
  exact ⟨u, v ++ b, by simp⟩

theorem occP_reverse {pat l : List Char} (h : OccP pat l) :
    OccP pat.reverse l.reverse := by
  obtain ⟨u, v, rfl⟩ := h
  exact ⟨v.reverse, u.reverse, by simp⟩

theorem occP_map {pat l : List Char} (f : Char → Char) (h : OccP pat l) :
    OccP (pat.map f) (l.map f) := by
  obtain ⟨u, v, rfl⟩ := h
  exact ⟨u.map f, v.map f, by simp⟩

theorem occP_dropWhile {p : Char → Bool} {pat l : List Char}
    (hh : ∀ c, pat.head? = some c → p c = false) (h : OccP pat l) :
    OccP pat (l.dropWhile p) := by
  obtain ⟨u, v, rfl⟩ := h
  induction u with
  | nil =>
    cases pat with
    | nil => exact ⟨[], ([] ++ v : List Char).dropWhile p, by simp⟩
    | cons pc pt =>
      have hp : p pc = false := hh pc rfl
      rw [List.nil_append, List.cons_append, dropWhile_cons_false hp]
      exact ⟨[], v, by simp⟩
  | cons a u' ih =>
    by_cases hp : p a
    · rw [List.cons_append, List.cons_append, dropWhile_cons_true hp]
      exact ih
    · rw [Bool.not_eq_true] at hp
      rw [List.cons_append, List.cons_append, dropWhile_cons_false hp]
      exact ⟨a :: u', v, by simp⟩

theorem occP_stripEndsBy {p : Char → Bool} {pat l : List Char}
    (hh : ∀ c, pat.head? = some c → p c = false)
    (hl : ∀ c, pat.getLast? = some c → p c = false)
    (h : OccP pat l) : OccP pat (stripEndsBy p l) := by
  unfold stripEndsBy
  have h1 := occP_dropWhile hh h
  have h2 := occP_reverse h1
  have h3 := occP_dropWhile
    (fun c hc => hl c (by rwa [List.head?_reverse] at hc)) h2
  have h4 := occP_reverse h3
  rwa [List.reverse_reverse] at h4

theorem string_append3_ne (a b c : String) (hb : b.data ≠ []) :
    a ++ b ++ c ≠ "" := by
  intro h
  have h2 := congrArg String.data h
  simp only [String.data_append] at h2
  rcases List.append_eq_nil.mp h2 with ⟨h3, _⟩
  rcases List.append_eq_nil.mp h3 with ⟨_, h4⟩
  exact hb h4

/-! ## Claim C5: price-inquiry button fields -/

/-- C5 counterexample: with the price on request but no contact email
found (a reachable state: the detail fetch failed), `Button3_Value` is
populated but is not a `mailto:` link, contradicting the claim that a
populated target is a mailto link. -/
theorem c5_target_not_mailto :
    (mkButton3 "Prijs op aanvraag" "123-Gent" "").2 ≠ "" ∧
      pyStartsWith ((mkButton3 "Prijs op aanvraag" "123-Gent" "").2) "mailto:"
        = false := by
  decide

/-- C5 (amended): `Button3_Label` and `Button3_Value` are non-empty iff
the formatted price is the on-request phrase; when populated the label is
the fixed string and the target is `Button2_email` (the mailto link when
an email was found, empty otherwise) followed by a subject line naming
the listing id. -/
theorem c5_price_inquiry (p id em : String) :
    ((mkButton3 p id em).1 ≠ "" ↔ p = "Prijs op aanvraag") ∧
    ((mkButton3 p id em).2 ≠ "" ↔ p = "Prijs op aanvraag") ∧
    (p = "Prijs op aanvraag" →
      (mkButton3 p id em).1 = "Vraag prijs aan" ∧
      (mkButton3 p id em).2 = em ++ "?subject=Prijs aanvraag " ++ id) := by
  unfold mkButton3
  by_cases h : p = "Prijs op aanvraag"
  · subst h
    refine ⟨by simp, ?_, fun _ => ⟨by simp, by simp⟩⟩
    simp only [if_pos rfl, iff_true]
    exact string_append3_ne em "?subject=Prijs aanvraag " id (by decide)
  · simp [h]

/-- C5 witness: the theorem applied at a concrete on-request listing. -/
theorem c5_price_inquiry_witness :
    (mkButton3 "Prijs op aanvraag" "8749906-Gent" "mailto:a@b.test").1 =
      "Vraag prijs aan" :=
  ((c5_price_inquiry "Prijs op aanvraag" "8749906-Gent" "mailto:a@b.test").2.2
    rfl).1

/-! ## Claim C7: the content-quality gate -/

theorem keepListing_false_iff (r : ListingObj) :
    keepListing r = false ↔
      (r.location = "" ∧ r.price = "" ∧ r.description = "") := by
  unfold keepListing
  simp [Bool.or_eq_false_iff, and_assoc]

/-- C7: a record survives the content gate iff it is in the input and not
all of location, price and description are empty; equivalently it is
discarded exactly when the three are all empty. -/
theorem c7_content_gate (l : List ListingObj) (r : ListingObj) :
    r ∈ emitFilter l ↔
      r ∈ l ∧ ¬(r.location = "" ∧ r.price = "" ∧ r.description = "") := by
  unfold emitFilter
  rw [List.mem_filter]
  constructor
  · rintro ⟨hm, hk⟩
    refine ⟨hm, fun hall => ?_⟩
    rw [(keepListing_false_iff r).mpr hall] at hk
    cases hk
  · rintro ⟨hm, hne⟩
    refine ⟨hm, ?_⟩
    cases hk : keepListing r with
    | true => rfl
    | false => exact absurd ((keepListing_false_iff r).mp hk) hne

/-- C7 witness: a record with only a location set is kept. -/
theorem c7_content_gate_witness :
    (⟨"1", "Gent", "", ""⟩ : ListingObj) ∈
      emitFilter [⟨"1", "Gent", "", ""⟩, ⟨"2", "", "", ""⟩] :=
  (c7_content_gate _ _).mpr (by decide)

/-! ## Claim C6: deduplication by listing id -/

theorem dedupGo_mem_iff (seen : List String) (l : List ListingObj)
    (r : ListingObj) :
    r ∈ dedupGo seen l ↔
      (r.listing_id ∉ seen ∧
        l.find? (fun x => x.listing_id == r.listing_id) = some r) := by
  induction l generalizing seen with
  | nil => simp [dedupGo]
  | cons a t ih =>
    unfold dedupGo
    by_cases hmem : a.listing_id ∈ seen
    · rw [if_pos hmem, ih]
      constructor
      · rintro ⟨hnot, hfind⟩
        have hne : (a.listing_id == r.listing_id) = false := by
          rw [beq_eq_false_iff_ne]
          intro he; rw [he] at hmem; exact hnot hmem
        exact ⟨hnot, by simp [List.find?_cons, hne, hfind]⟩
      · rintro ⟨hnot, hfind⟩
        have hne : (a.listing_id == r.listing_id) = false := by
          rw [beq_eq_false_iff_ne]
          intro he; rw [he] at hmem; exact hnot hmem
        refine ⟨hnot, ?_⟩
        rw [List.find?_cons, hne] at hfind
        exact hfind
    · rw [if_neg hmem, List.mem_cons, ih]
      constructor
      · rintro (rfl | ⟨hnot, hfind⟩)
        · exact ⟨hmem, by simp [List.find?_cons]⟩
        · have hra : r.listing_id ≠ a.listing_id := fun he =>
            hnot (by rw [he]; exact List.mem_cons_self _ _)
          have hne : (a.listing_id == r.listing_id) = false := by
            rw [beq_eq_false_iff_ne]; exact fun he => hra he.symm
          exact ⟨fun hs => hnot (List.mem_cons_of_mem _ hs),
            by simp [List.find?_cons, hne, hfind]⟩
      · rintro ⟨hnot, hfind⟩
        rw [List.find?_cons] at hfind
        by_cases heq : (a.listing_id == r.listing_id) = true
        · rw [heq] at hfind
          simp only [cond_true, Option.some.injEq] at hfind
          exact Or.inl hfind.symm
        · rw [Bool.not_eq_true] at heq
          rw [heq] at hfind
          simp only [cond_false] at hfind
          refine Or.inr ⟨?_, hfind⟩
          rw [List.mem_cons]
          rintro (he | hs)
          · rw [beq_eq_false_iff_ne] at heq; exact heq he.symm
          · exact hnot hs

theorem dedupGo_ids_nodup (seen : List String) (l : List ListingObj) :
    ((dedupGo seen l).map (fun r => r.listing_id)).Nodup ∧
      ∀ x ∈ (dedupGo seen l).map (fun r => r.listing_id), x ∉ seen := by
  induction l generalizing seen with
  | nil => simp [dedupGo]
  | cons a t ih =>
    unfold dedupGo
    by_cases hmem : a.listing_id ∈ seen
    · rw [if_pos hmem]; exact ih seen
    · rw [if_neg hmem]
      obtain ⟨hnd, hnotin⟩ := ih (a.listing_id :: seen)
      constructor
      · simp only [List.map_cons, List.nodup_cons]
        exact ⟨fun hx => (hnotin _ hx) (List.mem_cons_self _ _), hnd⟩
      · intro x hx
        simp only [List.map_cons, List.mem_cons] at hx
        rcases hx with rfl | hx
        · exact hmem
        · exact fun hs => hnotin x hx (List.mem_cons_of_mem _ hs)

/-- C6: after the dedup step the listing ids are pairwise distinct, and a
record is emitted iff it is the first record of the input carrying its
listing id (first occurrence in encounter order wins). -/
theorem c6_dedup_first_wins (l : List ListingObj) :
    ((dedupByListingId l).map (fun r => r.listing_id)).Nodup ∧
      ∀ r : ListingObj, r ∈ dedupByListingId l ↔
        l.find? (fun x => x.listing_id == r.listing_id) = some r := by
  unfold dedupByListingId
  refine ⟨(dedupGo_ids_nodup [] l).1, fun r => ?_⟩
  rw [dedupGo_mem_iff]
  simp

/-- C6 witness: of two records with the same id, the first is emitted. -/
theorem c6_dedup_witness :
    (⟨"1", "a", "", ""⟩ : ListingObj) ∈
      dedupByListingId [⟨"1", "a", "", ""⟩, ⟨"1", "b", "", ""⟩] :=
  ((c6_dedup_first_wins _).2 _).mpr (by decide)

/-! ## Claim C4: the contact label -/

/-- C4 counterexample: when no contact email exists the label is the
empty string, not a non-empty generic label. -/
theorem c4_no_email_label_empty : ¬((mkButton2 none).1 ≠ "") := by decide

/-- C4 (amended): when an email was found the contact label is
`Contacteer {DisplayName} - Irres` built from the resolved display name
(first name when present, else the token derived from the email local
part); when no email was found, or the detail page was unavailable, the
label is empty. -/
theorem c4_contact_label (fn em : String) :
    (em ≠ "" → (mkButton2 (some (fn, em))).1 =
      "Contacteer " ++ contactNameLabel fn em ++ " - Irres") ∧
    (mkButton2 none).1 = "" ∧ (mkButton2 (some (fn, ""))).1 = "" := by
  refine ⟨fun hem => ?_, rfl, ?_⟩
  · simp [mkButton2, hem]
  · simp [mkButton2]

/-- C4 witness: the theorem applied at a concrete contact email. -/
theorem c4_contact_label_witness :
    (mkButton2 (some ("", "kasper.devos@example.test"))).1 =
      "Contacteer Kasper Devos - Irres" :=
  ((c4_contact_label "" "kasper.devos@example.test").1 (by decide)).trans
    (by decide)

/-! ## Claim C1: root-relative URL resolution -/

/-- C1 counterexample: `normalize_url` hardcodes the IRRES.be origin, so
on `/pand/123/x` it does not produce the claimed
`https://example.test/pand/123/x` for the origin `https://example.test`;
there is no origin parameter at all. -/
theorem c1_origin_counterexample :
    normalize_url "/pand/123/x" false ≠ "https://example.test/pand/123/x" := by
  decide

/-- C1 (amended): for every input whose stripped form is root-relative
(starts with `/` but not `//`), `normalize_url` prefixes the fixed site
origin `https://irres.be`. -/
theorem c1_root_relative_fixed_origin (src : String)
    (h1 : pyStartsWithL (stripQuotesL (pyStripL src.data)) "/".data = true)
    (h2 : pyStartsWithL (stripQuotesL (pyStripL src.data)) "//".data = false) :
    normalize_url src false =
      "https://irres.be" ++ String.mk (stripQuotesL (pyStripL src.data)) := by
  have hne : src.data.isEmpty = false := by
    cases hd : src.data with
    | nil => rw [hd] at h1; exact absurd h1 (by decide)
    | cons a t => rfl
  unfold normalize_url
  rw [hne]
  simp only [Bool.false_eq_true, if_false]
  unfold resolveUrl
  rw [h2, h1]
  simp only [Bool.false_eq_true, if_false, if_true]
  simp only [addTrackingParam, Bool.false_and, Bool.false_eq_true, if_false]
  rfl

/-- C1 witness: the theorem applied at the concrete path of the claim. -/
theorem c1_root_relative_witness :
    normalize_url "/pand/123/x" false = "https://irres.be/pand/123/x" :=
  (c1_root_relative_fixed_origin "/pand/123/x" (by decide) (by decide)).trans
    (by decide)

/-! ## Claim C10: idempotence of URL normalization without tracking -/

theorem data_mk (l : List Char) : (String.mk l).data = l := rfl

theorem getLast?_append_right {A l : List Char} (h : l ≠ []) :
    (A ++ l).getLast? = l.getLast? := by
  rw [List.getLast?_append]
  cases hl : l.getLast? with
  | some y => rfl
  | none =>
    cases l with
    | nil => exact absurd rfl h
    | cons a t => rw [List.getLast?_eq_getLast _ (by simp)] at hl; cases hl

theorem isPrefixOf_cons_head {a b : Char} {as bs : List Char}
    (h : (a :: as).isPrefixOf (b :: bs) = true) : a = b := by
  simp only [List.isPrefixOf, Bool.and_eq_true, beq_iff_eq] at h
  exact h.1

theorem isPrefixOf_append_of {pat x : List Char} (y : List Char)
    (h : pat.isPrefixOf x = true) : pat.isPrefixOf (x ++ y) = true := by
  rw [List.isPrefixOf_iff_prefix] at h ⊢
  exact h.trans (List.prefix_append x y)

theorem httpSchemeMatch_append {A : List Char} (l : List Char)
    (h : pyStartsWithL (lowerL A) "https://".data = true) :
    httpSchemeMatch (A ++ l) = true := by
  unfold pyStartsWithL lowerL at h
  unfold httpSchemeMatch pyStartsWithL lowerL
  rw [List.map_append]
  rw [isPrefixOf_append_of (l.map lowerChar) h, Bool.or_true]

/-- A URL that already carries an http(s) scheme and clean ends is a
fixed point of `normalize_url` without tracking. -/
theorem normalize_url_fixed_abs (l : List Char)
    (hsch : httpSchemeMatch l = true)
    (hh : ∀ c, l.head? = some c → isPySpace c = false ∧ isQuoteChar c = false)
    (hl : ∀ c, l.getLast? = some c → isPySpace c = false ∧ isQuoteChar c = false) :
    normalize_url (String.mk l) false = String.mk l := by
  have hne : l ≠ [] := by
    intro h; subst h; exact absurd hsch (by decide)
  obtain ⟨c0, t0, rfl⟩ : ∃ c0 t0, l = c0 :: t0 := by
    cases l with
    | nil => exact absurd rfl hne
    | cons a t => exact ⟨a, t, rfl⟩
  have hc0 : lowerChar c0 = 'h' := by
    have hs2 := hsch
    unfold httpSchemeMatch pyStartsWithL lowerL at hs2
    rw [Bool.or_eq_true] at hs2
    rcases hs2 with hp | hp
    · rw [List.map_cons, show "http://".data = 'h' :: "ttp://".data from rfl] at hp
      exact (isPrefixOf_cons_head hp).symm
    · rw [List.map_cons, show "https://".data = 'h' :: "ttps://".data from rfl] at hp
      exact (isPrefixOf_cons_head hp).symm
  have hslash : (('/' : Char) == c0) = false := by
    cases hcc : ('/' : Char) == c0 with
    | false => rfl
    | true =>
      have h0 : ('/' : Char) = c0 := eq_of_beq hcc
      rw [← h0] at hc0
      exact absurd hc0 (by decide)
  have hb1 : pyStartsWithL (c0 :: t0) "//".data = false := by
    show List.isPrefixOf ('/' :: '/' :: ([] : List Char)) (c0 :: t0) = false
    simp [List.isPrefixOf, hslash]
  have hb2 : pyStartsWithL (c0 :: t0) "/".data = false := by
    show List.isPrefixOf ('/' :: ([] : List Char)) (c0 :: t0) = false
    simp [List.isPrefixOf, hslash]
  have hstrip : stripQuotesL (pyStripL (c0 :: t0)) = c0 :: t0 := by
    unfold pyStripL stripQuotesL
    rw [stripEndsBy_eq_self (fun c hc => (hh c hc).1) (fun c hc => (hl c hc).1),
      stripEndsBy_eq_self (fun c hc => (hh c hc).2) (fun c hc => (hl c hc).2)]
  unfold normalize_url
  rw [data_mk, show (c0 :: t0 : List Char).isEmpty = false from rfl]
  simp only [Bool.false_eq_true, if_false]
  rw [hstrip]
  unfold resolveUrl
  rw [hb1, hb2, hsch]
  simp only [Bool.false_eq_true, if_false, if_true]
  simp only [addTrackingParam, Bool.false_and, Bool.false_eq_true, if_false]

/-- C10 counterexample: `strip()` followed by `strip('\x27"')` can leave
trailing whitespace (here the input quote-slash-a-space-quote), so the
first normalization output still carries a trailing space that a second
normalization removes. -/
theorem c10_not_idempotent :
    normalize_url (normalize_url "\x27/a \x27" false) false ≠
      normalize_url "\x27/a \x27" false := by
  decide

/-- C10 (amended): `normalize_url` without tracking is idempotent on
every input whose stripped form is stable under another round of
whitespace and quote stripping (in particular on every URL the pipeline
re-normalizes, since those carry no edge whitespace or quotes). -/
theorem c10_idempotent_on_clean (x : String)
    (h1 : pyStripL (stripQuotesL (pyStripL x.data)) =
      stripQuotesL (pyStripL x.data))
    (h2 : stripQuotesL (stripQuotesL (pyStripL x.data)) =
      stripQuotesL (pyStripL x.data)) :
    normalize_url (normalize_url x false) false = normalize_url x false := by
  by_cases hx : x.data.isEmpty = true
  · have hxe : normalize_url x false = "" := by
      unfold normalize_url; rw [hx]; simp
    rw [hxe]; decide
  · rw [Bool.not_eq_true] at hx
    have hinner : normalize_url x false =
        String.mk (resolveUrl (stripQuotesL (pyStripL x.data))) := by
      unfold normalize_url
      rw [hx]
      simp only [Bool.false_eq_true, if_false]
      simp only [addTrackingParam, Bool.false_and, Bool.false_eq_true, if_false]
    rw [hinner]
    generalize hgen : stripQuotesL (pyStripL x.data) = s at h1 h2 ⊢
    have h1' : stripEndsBy isPySpace s = s := h1
    have h2' : stripEndsBy isQuoteChar s = s := h2
    have hsh := stripEndsBy_self_head h1'
    have hsl := stripEndsBy_self_last h1'
    have hqh := stripEndsBy_self_head h2'
    have hql := stripEndsBy_self_last h2'
    clear hinner hgen h1 h2
    by_cases b1 : pyStartsWithL s "//".data = true
    · obtain ⟨t, ht⟩ := List.isPrefixOf_iff_prefix.mp b1
      have hs2 : s = '/' :: '/' :: t := by rw [← ht]; rfl
      subst hs2
      have hres : resolveUrl ('/' :: '/' :: t) =
          "https:".data ++ ('/' :: '/' :: t) := by
        unfold resolveUrl; rw [b1]; simp
      rw [hres]
      apply normalize_url_fixed_abs
      · rw [show ("https:".data ++ ('/' :: '/' :: t) : List Char) =
          "https://".data ++ t from rfl]
        exact httpSchemeMatch_append t (by decide)
      · intro c hc
        have hch : c = 'h' := (Option.some.inj hc).symm
        subst hch; exact ⟨rfl, rfl⟩
      · intro c hc
        rw [getLast?_append_right (by simp)] at hc
        exact ⟨hsl c hc, hql c hc⟩
    · rw [Bool.not_eq_true] at b1
      by_cases b2 : pyStartsWithL s "/".data = true
      · obtain ⟨t, ht⟩ := List.isPrefixOf_iff_prefix.mp b2
        have hs2 : s = '/' :: t := by rw [← ht]; rfl
        subst hs2
        have hres : resolveUrl ('/' :: t) =
            "https://irres.be".data ++ ('/' :: t) := by
          unfold resolveUrl; rw [b1, b2]; simp
        rw [hres]
        apply normalize_url_fixed_abs
        · exact httpSchemeMatch_append ('/' :: t) (by decide)
        · intro c hc
          have hch : c = 'h' := (Option.some.inj hc).symm
          subst hch; exact ⟨rfl, rfl⟩
        · intro c hc
          rw [getLast?_append_right (by simp)] at hc
          exact ⟨hsl c hc, hql c hc⟩
      · rw [Bool.not_eq_true] at b2
        by_cases b3 : httpSchemeMatch s = true
        · have hres : resolveUrl s = s := by
            unfold resolveUrl; rw [b1, b2, b3]; simp
          rw [hres]
          exact normalize_url_fixed_abs s b3
            (fun c hc => ⟨hsh c hc, hqh c hc⟩)
            (fun c hc => ⟨hsl c hc, hql c hc⟩)
        · rw [Bool.not_eq_true] at b3
          by_cases b4 : pyStartsWithL s "www.".data = true
          · obtain ⟨t, ht⟩ := List.isPrefixOf_iff_prefix.mp b4
            have hs2 : s = 'w' :: 'w' :: 'w' :: '.' :: t := by rw [← ht]; rfl
            subst hs2
            have hres : resolveUrl ('w' :: 'w' :: 'w' :: '.' :: t) =
                "https://".data ++ ('w' :: 'w' :: 'w' :: '.' :: t) := by
              unfold resolveUrl; rw [b1, b2, b3, b4]; simp
            rw [hres]
            apply normalize_url_fixed_abs
            · exact httpSchemeMatch_append ('w' :: 'w' :: 'w' :: '.' :: t)
                (by decide)
            · intro c hc
              have hch : c = 'h' := (Option.some.inj hc).symm
              subst hch; exact ⟨rfl, rfl⟩
            · intro c hc
              rw [getLast?_append_right (by simp)] at hc
              exact ⟨hsl c hc, hql c hc⟩
          · rw [Bool.not_eq_true] at b4
            by_cases b5 : (!(s.contains ':')) = true
            · have hres : resolveUrl s =
                  "https://irres.be/".data ++
                    s.dropWhile (fun c => c == '/') := by
                unfold resolveUrl; rw [b1, b2, b3, b4, b5]; simp
              rw [hres]
              apply normalize_url_fixed_abs
              · exact httpSchemeMatch_append
                  (s.dropWhile (fun c => c == '/')) (by decide)
              · intro c hc
                have hch : c = 'h' := (Option.some.inj hc).symm
                subst hch; exact ⟨rfl, rfl⟩
              · intro c hc
                cases hd : s.dropWhile (fun c => c == '/') with
                | nil =>
                  rw [hd, List.append_nil] at hc
                  have hch : c = '/' := by
                    rw [show ("https://irres.be/".data : List Char).getLast? =
                      some '/' from rfl] at hc
                    exact (Option.some.inj hc).symm
                  subst hch; exact ⟨rfl, rfl⟩
                | cons a t =>
                  rw [hd, getLast?_append_right (by simp)] at hc
                  obtain ⟨u, hu⟩ := List.dropWhile_suffix (l := s)
                    (fun c => c == '/')
                  rw [hd] at hu
                  rw [← hu, getLast?_append_right (by simp)] at hsl hql
                  exact ⟨hsl c hc, hql c hc⟩
            · rw [Bool.not_eq_true] at b5
              have hres : resolveUrl s = s := by
                unfold resolveUrl; rw [b1, b2, b3, b4, b5]; simp
              rw [hres]
              have hne : s ≠ [] := by
                intro h; subst h; exact absurd b5 (by decide)
              have hemp : (String.mk s).data.isEmpty = false := by
                cases s with
                | nil => exact absurd rfl hne
                | cons a t => rfl
              have hstrip : stripQuotesL (pyStripL s) = s := by
                rw [show pyStripL s = s from h1']
                exact h2'
              unfold normalize_url
              rw [data_mk, hemp]
              simp only [Bool.false_eq_true, if_false]
              rw [hstrip, hres]
              simp only [addTrackingParam, Bool.false_and, Bool.false_eq_true,
                if_false]

/-- C10 witness: the theorem applied at a concrete clean candidate. -/
theorem c10_idempotent_witness :
    normalize_url (normalize_url "/pand/8749906/woning" false) false =
      normalize_url "/pand/8749906/woning" false :=
  c10_idempotent_on_clean "/pand/8749906/woning" (by decide) (by decide)

/-! ## Claim C9: the photo-candidate filter -/

theorem string_mk_data (c : String) : String.mk c.data = c := rfl

theorem ne_empty_data {c : String} (hc : c ≠ "") : c.data.isEmpty = false := by
  cases hd : c.data with
  | nil =>
    exfalso
    apply hc
    rw [← string_mk_data c, hd]
  | cons a t => rfl

theorem normalize_url_of_ne {c : String} (hc : c ≠ "") :
    normalize_url c false =
      String.mk (resolveUrl (stripQuotesL (pyStripL c.data))) := by
  unfold normalize_url
  rw [ne_empty_data hc]
  simp only [Bool.false_eq_true, if_false]
  simp only [addTrackingParam, Bool.false_and, Bool.false_eq_true, if_false]

theorem httpSchemeMatch_cons_false {c : Char} (l : List Char)
    (h : (('h' : Char) == lowerChar c) = false) :
    httpSchemeMatch (c :: l) = false := by
  unfold httpSchemeMatch pyStartsWithL lowerL
  rw [List.map_cons]
  rw [show "http://".data = 'h' :: "ttp://".data from rfl,
    show "https://".data = 'h' :: "ttps://".data from rfl]
  simp [List.isPrefixOf, h]

/-- A stripped candidate that is a `data:` URI falls through the
resolution chain unchanged. -/
theorem resolveUrl_data_prefix {s : List Char}
    (h : pyStartsWithL s "data:".data = true) : resolveUrl s = s := by
  obtain ⟨t, ht⟩ := List.isPrefixOf_iff_prefix.mp h
  have hs2 : s = 'd' :: 'a' :: 't' :: 'a' :: ':' :: t := by rw [← ht]; rfl
  subst hs2
  unfold resolveUrl
  rw [show pyStartsWithL ('d' :: 'a' :: 't' :: 'a' :: ':' :: t) "//".data = false from rfl,
    show pyStartsWithL ('d' :: 'a' :: 't' :: 'a' :: ':' :: t) "/".data = false from rfl,
    show pyStartsWithL ('d' :: 'a' :: 't' :: 'a' :: ':' :: t) "www.".data = false from rfl,
    httpSchemeMatch_cons_false _ (by decide),
    show (('d' :: 'a' :: 't' :: 'a' :: ':' :: t : List Char).contains ':') = true from rfl]
  simp

/-- Characters that lower-case onto the letters of `svg` are not
whitespace, quotes or slashes. -/
theorem svgChar_props {a : Char}
    (h : lowerChar a = 's' ∨ lowerChar a = 'v' ∨ lowerChar a = 'g') :
    isPySpace a = false ∧ isQuoteChar a = false ∧ (a == '/') = false := by
  unfold lowerChar at h
  split at h
  all_goals try exact absurd h (by decide)
  all_goals try decide
  all_goals (rcases h with h | h | h <;> subst h <;> decide)

theorem map_eq_svg {w : List Char} (h : w.map lowerChar = 's' :: 'v' :: 'g' :: []) :
    ∃ a b c, w = [a, b, c] ∧ lowerChar a = 's' ∧ lowerChar b = 'v' ∧
      lowerChar c = 'g' := by
  cases w with
  | nil => cases h
  | cons a w2 =>
    cases w2 with
    | nil => simp at h
    | cons b w3 =>
      cases w3 with
      | nil => simp at h
      | cons c w4 =>
        cases w4 with
        | nil =>
          simp only [List.map_cons, List.map_nil, List.cons.injEq,
            and_true] at h
          exact ⟨a, b, c, rfl, h.1, h.2.1, h.2.2⟩
        | cons d w5 => simp at h

/-- An occurrence whose head is not a slash survives the resolution
chain. -/
theorem occP_resolveUrl {w s : List Char}
    (hw : ∀ c, w.head? = some c → (c == '/') = false)
    (h : OccP w s) : OccP w (resolveUrl s) := by
  unfold resolveUrl
  split
  · exact occP_append_left _ h
  · split
    · exact occP_append_left _ h
    · split
      · exact h
      · split
        · exact occP_append_left _ h
        · split
          · exact occP_append_left _ (occP_dropWhile hw h)
          · exact h

/-- An svg reference in a raw candidate is still an svg reference in the
normalized URL. -/
theorem svg_preserved {c : String} (hc : c ≠ "")
    (h : substrOccursL "svg".data (lowerL c.data) = true) :
    substrOccursL "svg".data (lowerL (normalize_url c false).data) = true := by
  rw [normalize_url_of_ne hc, data_mk]
  rw [substrOccursL_iff] at h ⊢
  obtain ⟨u, v, huv⟩ := h
  rw [List.append_assoc] at huv
  unfold lowerL at huv
  obtain ⟨l1, l2, hc12, _, hm2⟩ := List.map_eq_append_iff.mp huv
  obtain ⟨l3, l4, hc34, hm3, _⟩ := List.map_eq_append_iff.mp hm2
  obtain ⟨a, b, d, hw, ha, hb, hd⟩ := map_eq_svg hm3
  have hoc : OccP [a, b, d] c.data := by
    refine ⟨l1, l4, ?_⟩
    rw [hc12, hc34, hw, List.append_assoc]
  have hhead : ∀ x, ([a, b, d] : List Char).head? = some x →
      isPySpace x = false ∧ isQuoteChar x = false ∧ (x == '/') = false := by
    intro x hx
    have hxa : x = a := (Option.some.inj hx).symm
    subst hxa
    exact svgChar_props (Or.inl ha)
  have hlast : ∀ x, ([a, b, d] : List Char).getLast? = some x →
      isPySpace x = false ∧ isQuoteChar x = false := by
    intro x hx
    rw [show ([a, b, d] : List Char).getLast? = some d from rfl] at hx
    have hxd : x = d := (Option.some.inj hx).symm
    subst hxd
    exact ⟨(svgChar_props (Or.inr (Or.inr hd))).1,
      (svgChar_props (Or.inr (Or.inr hd))).2.1⟩
  have h1 : OccP [a, b, d] (pyStripL c.data) :=
    occP_stripEndsBy (fun x hx => (hhead x hx).1) (fun x hx => (hlast x hx).1)
      hoc
  have h2 : OccP [a, b, d] (stripQuotesL (pyStripL c.data)) :=
    occP_stripEndsBy (fun x hx => (hhead x hx).2.1)
      (fun x hx => (hlast x hx).2) h1
  have h3 : OccP [a, b, d]
      (resolveUrl (stripQuotesL (pyStripL c.data))) :=
    occP_resolveUrl (fun x hx => (hhead x hx).2.2) h2
  have h4 := occP_map lowerChar h3
  rw [show ([a, b, d] : List Char).map lowerChar = "svg".data from by
    rw [show ("svg".data : List Char) = ['s', 'v', 'g'] from rfl,
      List.map_cons, List.map_cons, List.map_cons, List.map_nil, ha, hb, hd]]
    at h4
  exact h4

/-- A `data:` candidate stays a `data:` URI through normalization. -/
theorem data_preserved {c : String} (hc : c ≠ "")
    (h : pyStartsWithL (stripQuotesL (pyStripL c.data)) "data:".data = true) :
    pyStartsWith (normalize_url c false) "data:" = true := by
  rw [normalize_url_of_ne hc]
  unfold pyStartsWith
  rw [data_mk, resolveUrl_data_prefix h]
  exact h

theorem normPhotoCandidates_cons (c : String) (t : List String) :
    normPhotoCandidates (c :: t) =
      if c = "" then normPhotoCandidates t
      else if !(normalize_url c false == "") &&
          !(pyStartsWith (normalize_url c false) "data:") &&
          !(substrOccursL "svg".data (lowerL (normalize_url c false).data)) then
        normalize_url c false :: normPhotoCandidates t
      else normPhotoCandidates t := rfl

theorem normPhoto_mem {cands : List String} :
    ∀ n ∈ normPhotoCandidates cands,
      pyStartsWith n "data:" = false ∧
        substrOccursL "svg".data (lowerL n.data) = false := by
  induction cands with
  | nil => intro n hn; cases hn
  | cons c t ih =>
    intro n hn
    rw [normPhotoCandidates_cons] at hn
    by_cases hc : c = ""
    · rw [if_pos hc] at hn; exact ih n hn
    · rw [if_neg hc] at hn
      by_cases hcond : (!(normalize_url c false == "") &&
          !(pyStartsWith (normalize_url c false) "data:") &&
          !(substrOccursL "svg".data
            (lowerL (normalize_url c false).data))) = true
      · rw [if_pos hcond] at hn
        rcases List.mem_cons.mp hn with rfl | hn
        · rw [Bool.and_eq_true, Bool.and_eq_true] at hcond
          obtain ⟨⟨_, h2⟩, h3⟩ := hcond
          simp only [Bool.not_eq_true'] at h2 h3
          exact ⟨h2, h3⟩
        · exact ih n hn
      · rw [if_neg hcond] at hn; exact ih n hn

theorem normPhoto_nil {cands : List String}
    (h : ∀ c ∈ cands, c = "" ∨
      pyStartsWithL (stripQuotesL (pyStripL c.data)) "data:".data = true ∨
      substrOccursL "svg".data (lowerL c.data) = true) :
    normPhotoCandidates cands = [] := by
  induction cands with
  | nil => rfl
  | cons c t ih =>
    have ht : normPhotoCandidates t = [] :=
      ih (fun x hx => h x (List.mem_cons_of_mem _ hx))
    rw [normPhotoCandidates_cons]
    by_cases hc : c = ""
    · rw [if_pos hc]; exact ht
    · rw [if_neg hc]
      rcases h c (List.mem_cons_self _ _) with hce | hdata | hsvg
      · exact absurd hce hc
      · rw [data_preserved hc hdata]
        simp [ht]
      · rw [svg_preserved hc hsvg]
        simp [ht]

/-- C9: the resolver never returns a `data:` URI or a URL containing
`svg`, and when every gathered candidate is empty, a (stripped) `data:`
URI or an svg reference, it returns the empty string. -/
theorem c9_photo_filter (cands : List String) :
    (find_photo_on_element cands = "" ∨
      (pyStartsWith (find_photo_on_element cands) "data:" = false ∧
        substrOccursL "svg".data
          (lowerL (find_photo_on_element cands).data) = false)) ∧
    ((∀ c ∈ cands, c = "" ∨
        pyStartsWithL (stripQuotesL (pyStripL c.data)) "data:".data = true ∨
        substrOccursL "svg".data (lowerL c.data) = true) →
      find_photo_on_element cands = "") := by
  constructor
  · unfold find_photo_on_element
    cases hf : (normPhotoCandidates cands).find? isPreferredPhoto with
    | some n =>
      rw [Option.getD_some]
      exact Or.inr (normPhoto_mem n (List.mem_of_find?_eq_some hf))
    | none =>
      rw [Option.getD_none]
      cases hn : normPhotoCandidates cands with
      | nil => exact Or.inl rfl
      | cons a t =>
        have ha : a ∈ normPhotoCandidates cands := by
          rw [hn]; exact List.mem_cons_self _ _
        exact Or.inr (normPhoto_mem a ha)
  · intro h
    unfold find_photo_on_element
    rw [normPhoto_nil h]
    rfl

/-- C9 witness: a fragment offering only a `data:` URI and an svg icon
yields the empty string. -/
theorem c9_photo_filter_witness :
    find_photo_on_element
      ["data:image/png;base64,xyz", "/icons/logo.svg", ""] = "" :=
  (c9_photo_filter _).2 (by decide)

/-! ## Claim C2: the attributes map invariant -/

theorem setKey_keys (m : List (String × String)) (k v : String) :
    (setKey m k v).map Prod.fst = m.map Prod.fst := by
  unfold setKey
  rw [List.map_map]
  apply List.map_congr_left
  intro kv _
  by_cases hk : kv.1 = k
  · simp [hk]
  · simp [hk]

theorem stepLi_keys (m : List (String × String)) (li : DetailLi) :
    (stepLi m li).map Prod.fst = m.map Prod.fst := by
  unfold stepLi
  split
  · rfl
  · split
    · exact setKey_keys m _ _
    · rfl

theorem foldl_stepLi_keys (lis : List DetailLi) (m : List (String × String)) :
    (lis.foldl stepLi m).map Prod.fst = m.map Prod.fst := by
  induction lis generalizing m with
  | nil => rfl
  | cons li rest ih => rw [List.foldl_cons, ih, stepLi_keys]

theorem extract_keys (lis : List DetailLi) :
    (extract_property_details lis).map Prod.fst = DETAIL_KEYS := by
  unfold extract_property_details
  rw [foldl_stepLi_keys]
  decide

theorem setKey_values {m : List (String × String)} {k v : String} :
    ∀ kv ∈ setKey m k v, kv.2 = v ∨ kv ∈ m := by
  unfold setKey
  intro kv hkv
  obtain ⟨kv0, hkv0, hf⟩ := List.mem_map.mp hkv
  by_cases hk : kv0.1 = k
  · rw [if_pos hk] at hf
    left; rw [← hf]
  · rw [if_neg hk] at hf
    right; rw [← hf]; exact hkv0

theorem stepLi_values {m : List (String × String)} {li : DetailLi} :
    ∀ kv ∈ stepLi m li, kv.2 = liValue li ∨ kv ∈ m := by
  unfold stepLi
  intro kv hkv
  split at hkv
  · exact Or.inr hkv
  · split at hkv
    · exact setKey_values kv hkv
    · exact Or.inr hkv

theorem foldl_stepLi_values (lis : List DetailLi) (m : List (String × String)) :
    ∀ kv ∈ lis.foldl stepLi m,
      kv ∈ m ∨ ∃ li ∈ lis, kv.2 = liValue li := by
  induction lis generalizing m with
  | nil => intro kv hkv; exact Or.inl hkv
  | cons li rest ih =>
    intro kv hkv
    rw [List.foldl_cons] at hkv
    rcases ih (stepLi m li) kv hkv with hm | ⟨li', hli', hv⟩
    · rcases stepLi_values kv hm with hv | hm'
      · exact Or.inr ⟨li, List.mem_cons_self _ _, hv⟩
      · exact Or.inl hm'
    · exact Or.inr ⟨li', List.mem_cons_of_mem _ hli', hv⟩

theorem extract_values (lis : List DetailLi) :
    ∀ kv ∈ extract_property_details lis,
      kv.2 = "" ∨ ∃ li ∈ lis, kv.2 = liValue li := by
  intro kv hkv
  rcases foldl_stepLi_values lis initDetails kv hkv with hm | hex
  · left
    obtain ⟨k, _, hke⟩ := List.mem_map.mp hm
    rw [← hke]
  · right; exact hex

theorem merge_general : ∀ (ks : List String) (m : List (String × String)),
    ks.Nodup → m.map Prod.fst = ks →
    (ks.map (fun k => (k, ""))).map (fun kv =>
      match lookupKey kv.1 m with
      | some v => if v = "" then kv else (kv.1, v)
      | none => kv) = m := by
  intro ks
  induction ks with
  | nil =>
    intro m _ hm
    rw [List.map_eq_nil_iff.mp hm]
    rfl
  | cons k ks ih =>
    intro m hnd hm
    cases m with
    | nil => cases hm
    | cons kv m' =>
      obtain ⟨a, b⟩ := kv
      rw [List.map_cons] at hm
      injection hm with h1 h2
      subst h1
      rw [List.map_cons, List.map_cons]
      congr 1
      · show (match lookupKey a ((a, b) :: m') with
          | some v => if v = "" then (a, "") else (a, v)
          | none => (a, "")) = (a, b)
        rw [show lookupKey a ((a, b) :: m') = some b from by
          simp [lookupKey]]
        show (if b = "" then ((a, "") : String × String) else (a, b)) = (a, b)
        by_cases hb : b = ""
        · rw [if_pos hb, hb]
        · rw [if_neg hb]
      · refine Eq.trans (List.map_congr_left ?_)
          (ih m' (List.nodup_cons.mp hnd).2 h2)
        intro x hx
        obtain ⟨k', hk', hxe⟩ := List.mem_map.mp hx
        subst hxe
        have hne : a ≠ k' := fun he =>
          (List.nodup_cons.mp hnd).1 (he ▸ hk')
        rw [show lookupKey (k', "").1 ((a, b) :: m') =
          lookupKey (k', "").1 m' from by simp [lookupKey, hne]]

theorem merge_found (found : List (String × String))
    (hk : found.map Prod.fst = DETAIL_KEYS) :
    mergeDetails found = found :=
  merge_general DETAIL_KEYS found (by decide) hk

/-- C2: the extracted attributes association list carries exactly the ten
detail keys in order; the assembler merge reproduces it verbatim; every
value is either empty or the normalization of some list item text; and
when no detail page was available the record keeps the all-empty map. -/
theorem c2_attributes_invariant (lis : List DetailLi) :
    ((extract_property_details lis).map Prod.fst = DETAIL_KEYS) ∧
    (mergeDetails (extract_property_details lis) =
      extract_property_details lis) ∧
    (∀ kv ∈ extract_property_details lis,
      kv.2 = "" ∨ ∃ li ∈ lis, kv.2 = liValue li) ∧
    (initDetails.map Prod.snd =
      ["", "", "", "", "", "", "", "", "", ""]) :=
  ⟨extract_keys lis, merge_found _ (extract_keys lis), extract_values lis,
    by decide⟩

/-- C2 witness: the invariant applied to a concrete detail page with one
bedroom item. -/
theorem c2_attributes_witness :
    mergeDetails
        (extract_property_details [⟨"Slaapkamers", some "5", "x"⟩]) =
      extract_property_details [⟨"Slaapkamers", some "5", "x"⟩] :=
  (c2_attributes_invariant [⟨"Slaapkamers", some "5", "x"⟩]).2.1

/-! ## Claim C8: numeric price formatting -/

theorem lowerChar_allowed {c : Char}
    (h : isAsciiDigit c = true ∨ c = '.' ∨ c = ',' ∨ c = ' ' ∨ c = '€') :
    lowerChar c = c := by
  unfold lowerChar
  split
  all_goals first
    | rfl
    | (rcases h with h | h | h | h | h <;> exact absurd h (by decide))

theorem isPrefixOf_cons_false {a b : Char} {as bs : List Char}
    (h : (a == b) = false) : (a :: as).isPrefixOf (b :: bs) = false := by
  simp [List.isPrefixOf, h]

theorem stripPhrasesGo_id (fuel : Nat) (l : List Char)
    (h : ∀ c ∈ l, ¬(lowerChar c = 'p') ∧ ¬(lowerChar c = 'c')) :
    stripPhrasesGo fuel l = l := by
  induction fuel generalizing l with
  | zero => rfl
  | succ fuel ih =>
    cases l with
    | nil => rfl
    | cons c t =>
      have hp : pyStartsWithL (lowerL (c :: t)) "prijs op aanvraag".data
          = false := by
        unfold pyStartsWithL lowerL
        rw [List.map_cons,
          show "prijs op aanvraag".data = 'p' :: "rijs op aanvraag".data
            from rfl]
        exact isPrefixOf_cons_false (beq_eq_false_iff_ne.mpr
          (fun he => (h c (List.mem_cons_self _ _)).1 he.symm))
      have hc : pyStartsWithL (lowerL (c :: t)) "compromis".data = false := by
        unfold pyStartsWithL lowerL
        rw [List.map_cons,
          show "compromis".data = 'c' :: "ompromis".data from rfl]
        exact isPrefixOf_cons_false (beq_eq_false_iff_ne.mpr
          (fun he => (h c (List.mem_cons_self _ _)).2 he.symm))
      unfold stripPhrasesGo
      rw [hp, hc]
      simp only [Bool.false_eq_true, if_false]
      rw [ih t (fun x hx => h x (List.mem_cons_of_mem _ hx))]

theorem filter_dropWhile (p q : Char → Bool) (l : List Char)
    (h : ∀ c, p c = true → q c = false) :
    (l.dropWhile p).filter q = l.filter q := by
  induction l with
  | nil => rfl
  | cons c t ih =>
    by_cases hp : p c
    · rw [dropWhile_cons_true hp, ih, List.filter_cons, h c hp]
      simp
    · rw [Bool.not_eq_true] at hp
      rw [dropWhile_cons_false hp]

theorem filter_stripEndsBy (p q : Char → Bool) (l : List Char)
    (h : ∀ c, p c = true → q c = false) :
    (stripEndsBy p l).filter q = l.filter q := by
  unfold stripEndsBy
  rw [List.filter_reverse, filter_dropWhile p q _ h, List.filter_reverse,
    filter_dropWhile p q _ h]
  simp

theorem filter_euro_digits (l : List Char) :
    ((l.filter (fun c => !(c == '€'))).filter isAsciiDigit) =
      l.filter isAsciiDigit := by
  induction l with
  | nil => rfl
  | cons c t ih =>
    by_cases he : c = '€'
    · subst he
      rw [List.filter_cons, List.filter_cons, if_neg (by decide),
        if_neg (by decide)]
      exact ih
    · rw [List.filter_cons, show ((!(c == '€')) = true) from by
        simp [beq_eq_false_iff_ne.mpr he]]
      simp only [if_true]
      rw [List.filter_cons, List.filter_cons, ih]

theorem space_not_digit : ∀ c : Char, isPySpace c = true → isAsciiDigit c = false := by
  intro c h
  unfold isPySpace at h
  have hm : c ∈ pySpaceChars := by simpa using h
  have hall : ∀ x ∈ pySpaceChars, isAsciiDigit x = false := by decide
  exact hall c hm

/-- C8: for every raw price string whose normalization consists of digits,
separator dots and commas, spaces and euro signs only, and whose digit
run is `1085000`, the formatter returns the display string
`€ 1.085.000`. -/
theorem c8_numeric_price_format (s : String)
    (h1 : ∀ c ∈ (normalize_text s).data,
      isAsciiDigit c = true ∨ c = '.' ∨ c = ',' ∨ c = ' ' ∨ c = '€')
    (hd : (normalize_text s).data.filter isAsciiDigit = "1085000".data) :
    format_price_string s = "€ 1.085.000" := by
  have hs : s ≠ "" := by
    intro he; subst he
    rw [show (normalize_text "").data = [] from rfl] at hd
    exact absurd hd (by decide)
  have hnoR : 'r' ∉ lowerL (normalize_text s).data := by
    intro hr
    obtain ⟨c, hcm, hce⟩ := List.mem_map.mp hr
    rw [lowerChar_allowed (h1 c hcm)] at hce
    subst hce
    rcases h1 'r' hcm with h | h | h | h | h <;> exact absurd h (by decide)
  have hnp : substrOccursL "prijs op aanvraag".data
      (lowerL (normalize_text s).data) = false := by
    cases hb : substrOccursL "prijs op aanvraag".data
        (lowerL (normalize_text s).data) with
    | false => rfl
    | true =>
      exact absurd (occP_chars ((substrOccursL_iff _ _).mp hb) 'r' (by decide))
        hnoR
  have hnc : substrOccursL "compromis".data
      (lowerL (normalize_text s).data) = false := by
    cases hb : substrOccursL "compromis".data
        (lowerL (normalize_text s).data) with
    | false => rfl
    | true =>
      exact absurd (occP_chars ((substrOccursL_iff _ _).mp hb) 'r' (by decide))
        hnoR
  have hdig : priceDigits (normalize_text s) = "1085000".data := by
    unfold priceDigits
    have hch : ∀ c ∈ (normalize_text s).data.filter (fun c => !(c == '€')),
        ¬(lowerChar c = 'p') ∧ ¬(lowerChar c = 'c') := by
      intro c hcm
      have hm := List.mem_of_mem_filter hcm
      have hal := h1 c hm
      rw [lowerChar_allowed hal]
      refine ⟨fun he => ?_, fun he => ?_⟩ <;> subst he <;>
        rcases hal with h | h | h | h | h <;> exact absurd h (by decide)
    rw [show removePricePhrases
        ((normalize_text s).data.filter (fun c => !(c == '€'))) =
        (normalize_text s).data.filter (fun c => !(c == '€')) from
      stripPhrasesGo_id _ _ hch]
    rw [show pyStripL ((normalize_text s).data.filter (fun c => !(c == '€')))
        = stripEndsBy isPySpace
          ((normalize_text s).data.filter (fun c => !(c == '€'))) from rfl]
    rw [filter_stripEndsBy _ _ _ space_not_digit]
    rw [filter_euro_digits]
    exact hd
  unfold format_price_string
  rw [ne_empty_data hs, hnp, hnc, hdig]
  simp only [Bool.false_eq_true, if_false]
  rw [if_neg (by decide)]
  decide

/-- C8 witness: the theorem applied at the literal price of the claim. -/
theorem c8_numeric_price_witness :
    format_price_string "€ 1.085.000" = "€ 1.085.000" :=
  c8_numeric_price_format "€ 1.085.000" (by decide) (by decide)

/-! ## Claim C3: idempotence of text normalization -/

theorem unescapeGo_no_amp (fuel : Nat) (l : List Char) (h : '&' ∉ l) :
    unescapeGo fuel l = l := by
  induction fuel generalizing l with
  | zero => rfl
  | succ fuel ih =>
    cases l with
    | nil => rfl
    | cons c t =>
      unfold unescapeGo
      rw [if_neg (fun he => h (by rw [← he]; exact List.mem_cons_self _ _))]
      rw [ih t (fun ht => h (List.mem_cons_of_mem _ ht))]

theorem substrOccurs_false_of_not_mem {a : Char} {pat l : List Char}
    (ha : a ∈ pat) (h : a ∉ l) : substrOccursL pat l = false := by
  cases hb : substrOccursL pat l with
  | false => rfl
  | true => exact absurd (occP_chars ((substrOccursL_iff _ _).mp hb) a ha) h

theorem decodeEscapes_no_backslash {l : List Char} (h : '\\' ∉ l) :
    decodeEscapes l = l := by
  unfold decodeEscapes
  rw [substrOccurs_false_of_not_mem (show '\\' ∈ ['\\', 'u'] from by decide) h,
    substrOccurs_false_of_not_mem (show '\\' ∈ ['\\', 'x'] from by decide) h]
  rfl

theorem pySplitWsGo_chars (l : List Char) :
    ∀ (acc : List Char), ∀ w ∈ pySplitWsGo l acc, ∀ c ∈ w, c ∈ l ∨ c ∈ acc := by
  induction l with
  | nil =>
    intro acc w hw c hc
    unfold pySplitWsGo at hw
    split at hw
    · cases hw
    · rw [List.mem_singleton] at hw
      subst hw
      exact Or.inr (List.mem_reverse.mp hc)
  | cons a t ih =>
    intro acc w hw c hc
    unfold pySplitWsGo at hw
    by_cases hsp : isPySpace a = true
    · rw [if_pos hsp] at hw
      split at hw
      · rcases ih [] w hw c hc with h | h
        · exact Or.inl (List.mem_cons_of_mem _ h)
        · cases h
      · rcases List.mem_cons.mp hw with rfl | hw
        · exact Or.inr (List.mem_reverse.mp hc)
        · rcases ih [] w hw c hc with h | h
          · exact Or.inl (List.mem_cons_of_mem _ h)
          · cases h
    · rw [Bool.not_eq_true] at hsp
      rw [hsp] at hw
      simp only [Bool.false_eq_true, if_false] at hw
      rcases ih (a :: acc) w hw c hc with h | h
      · exact Or.inl (List.mem_cons_of_mem _ h)
      · rcases List.mem_cons.mp h with rfl | h
        · exact Or.inl (List.mem_cons_self _ _)
        · exact Or.inr h

theorem joinSp_chars (ws : List (List Char)) :
    ∀ c ∈ joinSp ws, c = ' ' ∨ ∃ w ∈ ws, c ∈ w := by
  induction ws with
  | nil => intro c hc; cases hc
  | cons w ws ih =>
    cases ws with
    | nil =>
      intro c hc
      exact Or.inr ⟨w, List.mem_cons_self _ _, hc⟩
    | cons w2 ws2 =>
      intro c hc
      rw [show joinSp (w :: w2 :: ws2) = w ++ ' ' :: joinSp (w2 :: ws2)
        from rfl] at hc
      rcases List.mem_append.mp hc with h | h
      · exact Or.inr ⟨w, List.mem_cons_self _ _, h⟩
      · rcases List.mem_cons.mp h with rfl | h
        · exact Or.inl rfl
        · rcases ih c h with h' | ⟨w', hw', hc'⟩
          · exact Or.inl h'
          · exact Or.inr ⟨w', List.mem_cons_of_mem _ hw', hc'⟩

theorem mem_stripEndsBy {p : Char → Bool} {l : List Char} :
    ∀ c ∈ stripEndsBy p l, c ∈ l := by
  intro c hc
  unfold stripEndsBy at hc
  rw [List.mem_reverse] at hc
  have h1 := (List.dropWhile_suffix p).sublist.subset hc
  rw [List.mem_reverse] at h1
  exact (List.dropWhile_suffix p).sublist.subset h1

theorem mem_collapseSpaces {l : List Char} :
    ∀ c ∈ collapseSpaces l, c = ' ' ∨ c ∈ l := by
  intro c hc
  have h1 := mem_stripEndsBy c hc
  rcases joinSp_chars _ c h1 with h | ⟨w, hw, hcw⟩
  · exact Or.inl h
  · rcases pySplitWsGo_chars l [] w hw c hcw with h | h
    · exact Or.inr h
    · cases h

theorem pySplitWsGo_words (l : List Char) :
    ∀ (acc : List Char), (∀ c ∈ acc, isPySpace c = false) →
      ∀ w ∈ pySplitWsGo l acc, w ≠ [] ∧ ∀ c ∈ w, isPySpace c = false := by
  induction l with
  | nil =>
    intro acc hacc w hw
    unfold pySplitWsGo at hw
    split at hw
    · cases hw
    · rw [List.mem_singleton] at hw
      subst hw
      next hne =>
        refine ⟨fun he => ?_, fun c hc => hacc c (List.mem_reverse.mp hc)⟩
        rw [List.reverse_eq_nil_iff] at he
        rw [he] at hne
        exact hne rfl
  | cons a t ih =>
    intro acc hacc w hw
    unfold pySplitWsGo at hw
    by_cases hsp : isPySpace a = true
    · rw [if_pos hsp] at hw
      split at hw
      · exact ih [] (fun c hc => by cases hc) w hw
      · rcases List.mem_cons.mp hw with rfl | hw
        · next hne =>
            refine ⟨fun he => ?_,
              fun c hc => hacc c (List.mem_reverse.mp hc)⟩
            rw [List.reverse_eq_nil_iff] at he
            rw [he] at hne
            exact hne rfl
        · exact ih [] (fun c hc => by cases hc) w hw
    · rw [Bool.not_eq_true] at hsp
      rw [hsp] at hw
      simp only [Bool.false_eq_true, if_false] at hw
      refine ih (a :: acc) ?_ w hw
      intro c hc
      rcases List.mem_cons.mp hc with rfl | hc
      · exact hsp
      · exact hacc c hc

theorem pySplitWs_words (l : List Char) :
    ∀ w ∈ pySplitWs l, w ≠ [] ∧ ∀ c ∈ w, isPySpace c = false :=
  pySplitWsGo_words l [] (fun c hc => by cases hc)

theorem joinSp_ne_nil {ws : List (List Char)} (hne : ws ≠ [])
    (hws : ∀ w ∈ ws, w ≠ []) : joinSp ws ≠ [] := by
  cases ws with
  | nil => exact absurd rfl hne
  | cons w ws' =>
    cases ws' with
    | nil => exact hws w (List.mem_cons_self _ _)
    | cons w2 ws2 =>
      rw [show joinSp (w :: w2 :: ws2) = w ++ ' ' :: joinSp (w2 :: ws2)
        from rfl]
      intro he
      rcases List.append_eq_nil.mp he with ⟨_, h2⟩
      cases h2

theorem joinSp_ends (ws : List (List Char))
    (hws : ∀ w ∈ ws, w ≠ [] ∧ ∀ c ∈ w, isPySpace c = false) :
    (∀ c, (joinSp ws).head? = some c → isPySpace c = false) ∧
    (∀ c, (joinSp ws).getLast? = some c → isPySpace c = false) := by
  induction ws with
  | nil => exact ⟨(fun c hc => nomatch hc), (fun c hc => nomatch hc)⟩
  | cons w ws' ih =>
    cases ws' with
    | nil =>
      constructor
      · intro c hc
        show isPySpace c = false
        obtain ⟨hne, hch⟩ := hws w (List.mem_cons_self _ _)
        exact hch c (List.mem_of_mem_head? hc)
      · intro c hc
        obtain ⟨hne, hch⟩ := hws w (List.mem_cons_self _ _)
        exact hch c (List.mem_of_mem_getLast? hc)
    | cons w2 ws2 =>
      have hrec := ih (fun x hx => hws x (List.mem_cons_of_mem _ hx))
      obtain ⟨hne, hch⟩ := hws w (List.mem_cons_self _ _)
      have hjoin : joinSp (w :: w2 :: ws2) =
          (w ++ [' ']) ++ joinSp (w2 :: ws2) := by
        rw [show joinSp (w :: w2 :: ws2) = w ++ ' ' :: joinSp (w2 :: ws2)
          from rfl]
        simp
      constructor
      · intro c hc
        rw [hjoin] at hc
        cases hw : w with
        | nil => exact absurd hw hne
        | cons a t =>
          rw [hw, List.cons_append, List.cons_append] at hc
          have hca : c = a := (Option.some.inj hc).symm
          subst hca
          exact hch c (hw ▸ List.mem_cons_self _ _)
      · intro c hc
        rw [hjoin, getLast?_append_right
          (joinSp_ne_nil (by intro h; cases h)
            (fun x hx => (hws x (List.mem_cons_of_mem _ hx)).1))] at hc
        exact hrec.2 c hc

theorem collapseSpaces_of_words (ws : List (List Char))
    (hws : ∀ w ∈ ws, w ≠ [] ∧ ∀ c ∈ w, isPySpace c = false) :
    stripEndsBy isPySpace (joinSp ws) = joinSp ws :=
  stripEndsBy_eq_self (joinSp_ends ws hws).1 (joinSp_ends ws hws).2

theorem pySplitWsGo_nil (acc : List Char) :
    pySplitWsGo [] acc = if acc.isEmpty then [] else [acc.reverse] := rfl

theorem pySplitWsGo_cons (c : Char) (rest acc : List Char) :
    pySplitWsGo (c :: rest) acc =
      if isPySpace c then
        (if acc.isEmpty then pySplitWsGo rest []
         else acc.reverse :: pySplitWsGo rest [])
      else pySplitWsGo rest (c :: acc) := rfl

theorem splitWsGo_append_word (w : List Char)
    (hw : ∀ c ∈ w, isPySpace c = false) :
    ∀ (t acc : List Char),
      pySplitWsGo (w ++ t) acc = pySplitWsGo t (w.reverse ++ acc) := by
  induction w with
  | nil => intro t acc; simp
  | cons c w' ih =>
    intro t acc
    rw [List.cons_append, pySplitWsGo_cons]
    rw [hw c (List.mem_cons_self _ _)]
    simp only [Bool.false_eq_true, if_false]
    rw [ih (fun x hx => hw x (List.mem_cons_of_mem _ hx)) t (c :: acc)]
    congr 1
    simp

theorem pySplitWs_joinSp (ws : List (List Char))
    (hws : ∀ w ∈ ws, w ≠ [] ∧ ∀ c ∈ w, isPySpace c = false) :
    pySplitWs (joinSp ws) = ws := by
  induction ws with
  | nil => rfl
  | cons w ws' ih =>
    obtain ⟨hne, hch⟩ := hws w (List.mem_cons_self _ _)
    cases ws' with
    | nil =>
      show pySplitWsGo (joinSp [w]) [] = [w]
      rw [show joinSp [w] = w from rfl]
      have happ := splitWsGo_append_word w hch [] []
      rw [List.append_nil] at happ
      rw [happ, pySplitWsGo_nil, List.append_nil]
      rw [if_neg ?hcond]
      · rw [List.reverse_reverse]
      case hcond =>
        intro he
        rw [List.isEmpty_iff, List.reverse_eq_nil_iff] at he
        exact hne he
    | cons w2 ws2 =>
      have hrec := ih (fun x hx => hws x (List.mem_cons_of_mem _ hx))
      show pySplitWsGo (joinSp (w :: w2 :: ws2)) [] = w :: w2 :: ws2
      rw [show joinSp (w :: w2 :: ws2) = w ++ ' ' :: joinSp (w2 :: ws2)
        from rfl]
      rw [splitWsGo_append_word w hch _ []]
      rw [pySplitWsGo_cons]
      rw [if_pos (show isPySpace ' ' = true from rfl)]
      rw [List.append_nil]
      rw [if_neg ?hcond2]
      · rw [List.reverse_reverse]
        exact congrArg (w :: ·) hrec
      case hcond2 =>
        intro he
        rw [List.isEmpty_iff, List.reverse_eq_nil_iff] at he
        exact hne he

theorem collapse_idem (l : List Char) :
    collapseSpaces (collapseSpaces l) = collapseSpaces l := by
  unfold collapseSpaces
  rw [collapseSpaces_of_words _ (pySplitWs_words l)]
  rw [pySplitWs_joinSp _ (pySplitWs_words l)]
  exact collapseSpaces_of_words _ (pySplitWs_words l)

/-- C3 counterexample: `html.unescape` is applied once per call, so the
doubly-escaped ampersand entity decodes one level per normalization:
`&amp;amp;` normalizes to `&amp;`, which normalizes further to `&`. -/
theorem c3_not_idempotent :
    normalize_text (normalize_text "&amp;amp;") ≠ normalize_text "&amp;amp;" := by
  decide

/-- C3 (amended): `normalize_text` is idempotent on every string
containing no ampersand and no backslash (entity decoding and escape
decoding are the two non-idempotent steps; whitespace collapsing alone is
idempotent). -/
theorem c3_idempotent_on_plain (s : String) (h1 : '&' ∉ s.data)
    (h2 : '\\' ∉ s.data) :
    normalize_text (normalize_text s) = normalize_text s := by
  have hplain : ∀ (l : List Char), '&' ∉ l → '\\' ∉ l →
      normalize_text (String.mk l) = String.mk (collapseSpaces l) := by
    intro l ha hb
    unfold normalize_text
    rw [data_mk]
    rw [show htmlUnescapeL l = l from unescapeGo_no_amp _ _ ha,
      decodeEscapes_no_backslash hb]
  have hmain : normalize_text s = String.mk (collapseSpaces s.data) := by
    rw [show normalize_text s = normalize_text (String.mk s.data) from by
      rw [string_mk_data]]
    exact hplain s.data h1 h2
  rw [hmain]
  have hca : '&' ∉ collapseSpaces s.data := by
    intro hm
    rcases mem_collapseSpaces '&' hm with h | h
    · cases h
    · exact h1 h
  have hcb : '\\' ∉ collapseSpaces s.data := by
    intro hm
    rcases mem_collapseSpaces '\\' hm with h | h
    · cases h
    · exact h2 h
  rw [hplain _ hca hcb]
  rw [collapse_idem]

/-- C3 witness: the theorem applied at a plain string with a double
space. -/
theorem c3_idempotent_witness :
    normalize_text (normalize_text "Gent  12") = normalize_text "Gent  12" :=
  c3_idempotent_on_plain "Gent  12" (by decide) (by decide)

end Irres
